import Mathlib

/-!
Formal model of the file-access tool wrapper module `pi-tools.read.ts` of the
openclaw repository: parameter normalization between naming conventions, schema
patching, required-parameter assertion, the sandbox path guard, the hierarchical
ignore-policy resolver with its per-(anchor, directory) cache, and the
read-result image normalizer.

Modelling conventions:
* Absolute POSIX paths are represented as lists of path segments (the
  filesystem root `/` is `[]`); the Node `path` module operations used by the
  source (`dirname`, `relative`, `join`, `parse(..).root`) become the
  corresponding list operations.
* JavaScript string primitives (`trim`, `startsWith`, `endsWith`, `split`,
  single-character `includes`) are embedded as kernel-computable functions on
  the character list of a `String`.
* JavaScript argument objects are embedded as `JVal`, with objects as ordered
  key/value lists (JS objects preserve insertion order).
* External collaborators that are not part of this file's code (the filesystem,
  the `ignore` pattern matcher package, the sandbox path resolver of
  `sandbox-paths.ts`, the MIME sniffer of `media/mime.ts`) are modelled from
  the specification, as noted on each definition.
-/

namespace OpenClaw

/-- Embedding of JavaScript `String.prototype.startsWith` (kernel-computable). -/
def strStartsWith (s p : String) : Bool := p.data.isPrefixOf s.data

/-- Embedding of JavaScript `String.prototype.endsWith` (kernel-computable). -/
def strEndsWith (s p : String) : Bool := p.data.isSuffixOf s.data

/-- Embedding of a single-character containment test on a string. -/
def strContainsChar (s : String) (c : Char) : Bool := s.data.contains c

/-- Whitespace trimming on a character list (both ends). -/
def trimChars (l : List Char) : List Char :=
  ((l.dropWhile Char.isWhitespace).reverse.dropWhile Char.isWhitespace).reverse

/-- Embedding of JavaScript `String.prototype.trim` (kernel-computable). -/
def strTrim (s : String) : String := String.mk (trimChars s.data)

/-- Splits a character list on a separator character. -/
def splitCharsOn (c : Char) : List Char → List (List Char)
  | [] => [[]]
  | x :: xs =>
    let rest := splitCharsOn c xs
    if x == c then [] :: rest
    else match rest with
      | [] => [[x]]
      | r :: rs => (x :: r) :: rs

/-- Embedding of `content.split(/\r?\n/)`: the source splits on newlines and
later trims each line, so splitting on the newline character alone is
equivalent (a stray carriage return is removed by the trim). -/
def strSplitLines (s : String) : List String := (splitCharsOn '\n' s.data).map String.mk

/-- Embedding of `rule.split("/")` on ignore patterns. -/
def strSplitSlash (s : String) : List String := (splitCharsOn '/' s.data).map String.mk

/-- Embedding of `s.slice(1)` for ASCII one-character markers (`!`, `/`). -/
def strDrop1 (s : String) : String := String.mk s.data.tail

/-- JavaScript values as they appear in tool-call arguments and schemas.
Objects are ordered key/value lists. (Passing an array where an object is
expected is out of the modelled universe; the claims quantify over argument
objects and schemas.) -/
inductive JVal where
  | str : String → JVal
  | num : Int → JVal
  | bool : Bool → JVal
  | null : JVal
  | obj : List (String × JVal) → JVal
  | arr : List JVal → JVal

/-- A JavaScript object record: ordered key/value pairs. -/
abbrev JObj := List (String × JVal)

/-- Property lookup on a record (first binding of the key wins, keys of real JS
objects are unique). -/
def getK : JObj → String → Option JVal
  | [], _ => none
  | (k, v) :: r, key => if k = key then some v else getK r key

/-- Embedding of the JavaScript `key in record` test. -/
def hasK (r : JObj) (k : String) : Bool := (getK r k).isSome

/-- Embedding of JavaScript property assignment `record[key] = v`: replaces the
binding in place when the key is present, otherwise appends it. -/
def setK : JObj → String → JVal → JObj
  | [], key, v => [(key, v)]
  | (k, w) :: r, key, v => if k = key then (key, v) :: r else (k, w) :: setK r key v

/-- Embedding of JavaScript `delete record[key]`. -/
def delK : JObj → String → JObj
  | [], _ => []
  | (k, v) :: r, key => if k = key then delK r key else (k, v) :: delK r key

/-- One alias rewrite of `normalizeToolParams`: if the alias key is present and
the canonical key absent, copy the alias's value to the canonical key and
delete the alias key; otherwise leave the record alone (source lines 142-155). -/
def rewriteAlias (canonical aliasKey : String) (r : JObj) : JObj :=
  if hasK r aliasKey && !(hasK r canonical) then
    delK (setK r canonical ((getK r aliasKey).getD JVal.null)) aliasKey
  else r

/-- The three alias rewrites of `normalizeToolParams`, in source order. -/
def normalizeRecord (r : JObj) : JObj :=
  rewriteAlias "newText" "new_string"
    (rewriteAlias "oldText" "old_string"
      (rewriteAlias "path" "file_path" r))

/-- Embedding of `normalizeToolParams`: non-objects yield no normalization
(`undefined`); objects are copied and the legacy Claude Code keys `file_path`,
`old_string`, `new_string` are rewritten to `path`, `oldText`, `newText` when
the canonical key is absent. -/
def normalizeToolParams : JVal → Option JObj
  | JVal.obj r => some (normalizeRecord r)
  | _ => none

/-- The canonical/alias field pairs of the source (`aliasPairs` in
`patchToolSchemaForClaudeCompatibility`, and the same three rewrites of
`normalizeToolParams`). -/
def aliasPairs : List (String × String) :=
  [("path", "file_path"), ("oldText", "old_string"), ("newText", "new_string")]

/-- All keys touched by alias normalization. -/
def aliasPairKeys : List String :=
  ["path", "file_path", "oldText", "old_string", "newText", "new_string"]

/-- A named group of acceptable alias keys for one logical parameter
(source type `RequiredParamGroup`). -/
structure RequiredParamGroup where
  keys : List String
  allowEmpty : Bool := false
  label : Option String := none

/-- One group check of `assertRequiredParams`: some key of the group is present
with a string value that is non-empty after trimming (any string when the group
allows empty values). -/
def groupSatisfied (r : JObj) (g : RequiredParamGroup) : Bool :=
  g.keys.any fun key =>
    match getK r key with
    | some (JVal.str v) => g.allowEmpty || (strTrim v != "")
    | _ => false

/-- The error label of a group: its `label` when set, otherwise the keys joined
with " or ". -/
def groupLabel (g : RequiredParamGroup) : String :=
  g.label.getD (String.intercalate " or " g.keys)

/-- The group loop of `assertRequiredParams`: groups are checked in order and
the first unsatisfied group aborts with its label. -/
def assertGroups (r : JObj) : List RequiredParamGroup → Except String Unit
  | [] => Except.ok ()
  | g :: gs =>
    if groupSatisfied r g then assertGroups r gs
    else Except.error ("Missing required parameter: " ++ groupLabel g)

/-- Embedding of `assertRequiredParams` (source lines 210-239). An absent or
non-object argument record is `none` (the source guard
`!record || typeof record !== "object"`); throwing becomes `Except.error`. -/
def assertRequiredParams (record : Option JObj) (groups : List RequiredParamGroup)
    (toolName : String) : Except String Unit :=
  match record with
  | none => Except.error ("Missing parameters for " ++ toolName)
  | some r => assertGroups r groups

/-- A tool definition as this module sees it: a name and a declared parameter
schema. (The execution member is modelled separately, as an instrumented
executor, where a claim is about call behavior.) -/
structure AnyAgentTool where
  name : String
  parameters : JVal

/-- The `required` extraction of `patchToolSchemaForClaudeCompatibility`:
an array value is filtered to its string entries, anything else yields `[]`. -/
def requiredStrings : Option JVal → List String
  | some (JVal.arr xs) => xs.filterMap fun v =>
      match v with
      | JVal.str s => some s
      | _ => none
  | _ => []

/-- One iteration of the alias loop of `patchToolSchemaForClaudeCompatibility`
over the state (properties, required, changed): when the canonical field is
declared, the alias property is added (mirroring the canonical property) if
absent, and the first occurrence of the canonical field is removed from the
required list (`indexOf` + `splice`). -/
def patchStep (st : JObj × List String × Bool) (pair : String × String) :
    JObj × List String × Bool :=
  let props := st.1
  let req := st.2.1
  let changed := st.2.2
  if hasK props pair.1 then
    let addAlias := !(hasK props pair.2)
    let props2 := if addAlias then setK props pair.2 ((getK props pair.1).getD JVal.null) else props
    let inReq := req.contains pair.1
    let req2 := if inReq then req.erase pair.1 else req
    (props2, req2, changed || addAlias || inReq)
  else (props, req, changed)

/-- Embedding of `patchToolSchemaForClaudeCompatibility` (source lines
159-208): on a schema with an object `properties`, run the alias loop; if
nothing changed return the original definition value, else return a new
definition whose schema carries the updated `properties` and `required`. -/
def patchToolSchemaForClaudeCompatibility (tool : AnyAgentTool) : AnyAgentTool :=
  match tool.parameters with
  | JVal.obj schema =>
    match getK schema "properties" with
    | some (JVal.obj props) =>
      let req0 := requiredStrings (getK schema "required")
      let st := aliasPairs.foldl patchStep (props, req0, false)
      if st.2.2 then
        { tool with
          parameters := JVal.obj
            (setK (setK schema "properties" (JVal.obj st.1)) "required"
              (JVal.arr (st.2.1.map JVal.str))) }
      else tool
    | _ => tool
  | _ => tool

/-- The declared properties of a tool definition's parameter schema. -/
def schemaProps (tool : AnyAgentTool) : JObj :=
  match tool.parameters with
  | JVal.obj schema =>
    match getK schema "properties" with
    | some (JVal.obj p) => p
    | _ => []
  | _ => []

/-- The required field names of a tool definition's parameter schema. -/
def schemaRequired (tool : AnyAgentTool) : List String :=
  match tool.parameters with
  | JVal.obj schema => requiredStrings (getK schema "required")
  | _ => []

/-- Embedding of Node `path.relative` between two resolved absolute paths
given as segment lists: drop the common prefix, then one `..` per remaining
segment of the start path followed by the remaining segments of the target. -/
def relSegs : List String → List String → List String
  | [], bs => bs
  | a :: as, [] => List.replicate (a :: as).length ".."
  | a :: as, b :: bs =>
    if a = b then relSegs as bs
    else List.replicate (a :: as).length ".." ++ b :: bs

/-- Embedding of `relToWorkspace.startsWith("..")` on the joined relative path:
the joined string starts with `..` exactly when its first segment does. -/
def startsWithDotDot (rel : List String) : Bool :=
  match rel.head? with
  | some s => strStartsWith s ".."
  | none => false

/-- Renders a segment-list absolute path as the POSIX path string. -/
def renderPath (segs : List String) : String := "/" ++ String.intercalate "/" segs

/-- Modelled from the spec: a parsed rule of the external `ignore` pattern
matcher package (an external collaborator; only its conventional layered-ignore
semantics for literal, wildcard-free patterns is modelled). A leading `!`
negates; a pattern containing `/` is anchored at the rule-set root; an
unanchored pattern matches its single segment at any depth. -/
structure IgnRule where
  neg : Bool
  segs : List String
  anchored : Bool
deriving DecidableEq

/-- Modelled from the spec: parsing one rule string handed to the matcher. -/
def parseIgnRule (s : String) : IgnRule :=
  let neg := strStartsWith s "!"
  let body := if neg then strDrop1 s else s
  { neg := neg, segs := strSplitSlash body, anchored := strContainsChar body '/' }

/-- Modelled from the spec: whether one rule matches a path (given as segments
relative to the rule-set root). An anchored pattern matches the path and
everything below it; an unanchored single-segment pattern matches wherever its
segment occurs in the path. -/
def segsMatch (r : IgnRule) (path : List String) : Bool :=
  if r.anchored then r.segs.isPrefixOf path
  else
    match r.segs with
    | [p] => path.contains p
    | ps => ps.isPrefixOf path

/-- Modelled from the spec: the matcher's ignore decision — rules are applied
in order and the last matching rule decides (later rules override earlier
ones); a negated match un-ignores. -/
def igIgnores (rules : List String) (path : List String) : Bool :=
  rules.foldl
    (fun acc rs =>
      let r := parseIgnRule rs
      if segsMatch r path then !r.neg else acc)
    false

/-- Modelled from the spec: the meaning of an `.ignore` rule with a leading `/`
in its own directory — it is anchored to that directory, matching the named
path directly under it (and anything below that path), and does not apply in
deeper subdirectories. -/
def rootAnchoredLineMatches (line : String) (relFromDir : List String) : Bool :=
  (strSplitSlash (strDrop1 line)).isPrefixOf relFromDir

/-- The per-line rule transformation of `checkIgnorePolicy` (source lines
350-375): trim; skip blank and `#` comment lines; strip and remember a leading
`!`; strip a leading `/`; prepend the directory's anchor-relative path; restore
the negation marker. -/
def scopeIgnoreLine (pfx : String) (line : String) : Option String :=
  let rule := strTrim line
  if rule = "" || strStartsWith rule "#" then none
  else
    let isNeg := strStartsWith rule "!"
    let r1 := if isNeg then strDrop1 rule else rule
    let r2 := if strStartsWith r1 "/" then strDrop1 r1 else r1
    let scopedRule := pfx ++ r2
    some (if isNeg then "!" ++ scopedRule else scopedRule)

/-- The rules contributed by one directory of the chain (source lines 328-384):
read its `.ignore` file (a missing or unreadable file contributes no rules, the
fail-open choice of the source), compute the directory's prefix relative to the
anchor (empty for the anchor itself, otherwise the relative path plus a
separator, with separators normalized to `/`), and scope every line. The
filesystem of `.ignore` files is the function `env` from a directory to the
file's contents. -/
def scopedRulesFor (env : List String → Option String) (anchorDir dir : List String) :
    List String :=
  match env dir with
  | none => []
  | some content =>
    let p0 := String.intercalate "/" (relSegs anchorDir dir)
    let p1 := if p0 != "" then p0 ++ "/" else p0
    let pfx := if dir = anchorDir then "" else p1
    (strSplitLines content).filterMap (scopeIgnoreLine pfx)

/-- The upward directory walk of `checkIgnorePolicy` (source lines 301-321),
with explicit fuel equal to the starting directory's depth (each iteration
moves to the parent, so this fuel is never exhausted before a stop condition):
push the current directory; stop at the anchor or the filesystem root; stop
early if the parent would be shallower than the anchor (the cross-drive safety
check of the source, with segment count standing in for string length). -/
def collectDirsAux (inside : Bool) (anchorDir : List String) :
    Nat → List String → List (List String)
  | 0, cur => [cur]
  | fuel + 1, cur =>
    if cur = anchorDir ∨ cur = [] then [cur]
    else
      let parent := cur.dropLast
      if inside ∧ parent.length < anchorDir.length then [cur]
      else cur :: collectDirsAux inside anchorDir fuel parent

/-- The chain of directories from `fileDir` up to the anchor, bottom-up. -/
def collectDirs (inside : Bool) (anchorDir fileDir : List String) : List (List String) :=
  collectDirsAux inside anchorDir fileDir.length fileDir

/-- The process-wide ignore cache, made explicit: composite key
(anchor directory, queried directory), value the aggregated scoped rules of the
cached matcher instance. -/
abbrev IgnoreCache := List ((List String × List String) × List String)

/-- Lookup in the explicit ignore cache (embedding of `ignoreCache.get`). -/
def cacheLookup : IgnoreCache → (List String × List String) → Option (List String)
  | [], _ => none
  | (k, v) :: rest, key => if k = key then some v else cacheLookup rest key

/-- The final ignore test of `checkIgnorePolicy` (source lines 388-395): the
target path relative to the anchor is queried against the matcher; a match is
an access-denied error carrying the absolute path. -/
def decideIgnore (rules : List String) (anchorDir absoluteFilePath : List String) :
    Except String Unit :=
  if igIgnores rules (relSegs anchorDir absoluteFilePath) then
    Except.error ("Access denied: Path " ++ renderPath absoluteFilePath ++
      " is ignored by .ignore policy.")
  else Except.ok ()

/-- The `isInsideWorkspace` test of `checkIgnorePolicy` (source line 291). -/
def ignoreInside (absoluteFilePath root : List String) : Bool :=
  !(startsWithDotDot (relSegs root absoluteFilePath))

/-- The anchor directory of `checkIgnorePolicy`: the workspace root for paths
inside it, the filesystem root otherwise (source line 295). -/
def ignoreAnchorDir (absoluteFilePath root : List String) : List String :=
  if ignoreInside absoluteFilePath root then root else []

/-- Embedding of `checkIgnorePolicy` (source lines 283-395) with the
process-wide cache threaded explicitly. Returns the decision, the updated
cache, and the number of `.ignore` file reads attempted (the read-count spy of
the specification: one attempted read per directory of the chain on a cache
miss, none on a cache hit). -/
def checkIgnorePolicy (env : List String → Option String) (cache : IgnoreCache)
    (absoluteFilePath root : List String) : Except String Unit × IgnoreCache × Nat :=
  let fileDir := absoluteFilePath.dropLast
  let anchorDir := ignoreAnchorDir absoluteFilePath root
  match cacheLookup cache (anchorDir, fileDir) with
  | some rules => (decideIgnore rules anchorDir absoluteFilePath, cache, 0)
  | none =>
    let dirs := (collectDirs (ignoreInside absoluteFilePath root) anchorDir fileDir).reverse
    let rules := (dirs.map (scopedRulesFor env anchorDir)).flatten
    (decideIgnore rules anchorDir absoluteFilePath,
      ((anchorDir, fileDir), rules) :: cache, dirs.length)

/-- Embedding of the execute closure built by `wrapSandboxPathGuard` (source
lines 262-278), instrumented with an invocation counter for the wrapped tool's
execute (the spy of the specification). `sbx` is the Sandbox Path Resolver.
Modelled from the spec: `assertSandboxPath` (from `sandbox-paths.ts`, an
external collaborator of this module) takes the path argument and the sandbox
root (also used as working directory here) and either fails with an
escape-detected error or returns the resolved absolute path. -/
def wrapSandboxPathGuardExecute {α : Type}
    (sbx : String → List String → Except String (List String))
    (env : List String → Option String) (cache : IgnoreCache) (root : List String)
    (exec : JVal → Except String α) (args : JVal) :
    Except String α × IgnoreCache × Nat :=
  let normalized := normalizeToolParams args
  let record : Option JObj :=
    match normalized with
    | some r => some r
    | none =>
      match args with
      | JVal.obj r => some r
      | _ => none
  let argsOut : JVal :=
    match normalized with
    | some r => JVal.obj r
    | none => args
  match record.bind (fun r => getK r "path") with
  | some (JVal.str filePath) =>
    if strTrim filePath ≠ "" then
      match sbx filePath root with
      | Except.error e => (Except.error e, cache, 0)
      | Except.ok resolved =>
        match checkIgnorePolicy env cache resolved root with
        | (Except.error e, cache2, _) => (Except.error e, cache2, 0)
        | (Except.ok _, cache2, _) => (exec argsOut, cache2, 1)
    else (exec argsOut, cache, 1)
  | _ => (exec argsOut, cache, 1)

/-- A content block of a tool result: text, image (base64 data and declared
media type), or a block kind opaque to this module. -/
inductive ContentBlock where
  | text : String → ContentBlock
  | image : String → String → ContentBlock
  | other : String → ContentBlock
deriving DecidableEq

/-- A tool result: the ordered content blocks plus a representative further
field (standing for every field other than `content`, preserved by the spread
`{ ...result, content }`). -/
structure AgentToolResult where
  content : List ContentBlock
  isError : Bool
deriving DecidableEq

/-- The image-block predicate of `normalizeReadImageResult`'s `find` (a block
of type image whose data and media type are strings). -/
def isImageBlock : ContentBlock → Bool
  | ContentBlock.image _ _ => true
  | _ => false

/-- Embedding of `rewriteReadImageHeader` (source lines 42-48). -/
def rewriteReadImageHeader (text mimeType : String) : String :=
  if strStartsWith text "Read image file [" && strEndsWith text "]" then
    "Read image file [" ++ mimeType ++ "]"
  else text

/-- The per-block rewrite of `normalizeReadImageResult`'s content map (source
lines 87-105): image blocks get the sniffed media type, text blocks get their
read-image header rewritten, other blocks pass through. -/
def rewriteBlockMime (sniffed : String) : ContentBlock → ContentBlock
  | ContentBlock.image d _ => ContentBlock.image d sniffed
  | ContentBlock.text t => ContentBlock.text (rewriteReadImageHeader t sniffed)
  | b => b

/-- The rewritten result (`{ ...result, content: nextContent }`). -/
def applySniffedMime (sniffed : String) (result : AgentToolResult) : AgentToolResult :=
  { result with content := result.content.map (rewriteBlockMime sniffed) }

/-- Embedding of `normalizeReadImageResult` (source lines 50-108). Modelled
from the spec: the content-type sniffer (`sniffMimeFromBase64` over the
external `detectMime` of `media/mime.ts`) is the oracle parameter `sniff` from
the image payload to a best-effort media type. First image block found: empty
trimmed payload fails; no sniff result returns the result unchanged; a
non-image sniffed type fails with the type-mismatch error; a differing image
type rewrites every block; a matching type returns the result unchanged. -/
def normalizeReadImageResult (sniff : String → Option String)
    (result : AgentToolResult) (filePath : String) : Except String AgentToolResult :=
  match result.content.find? isImageBlock with
  | some (ContentBlock.image d m) =>
    if strTrim d = "" then
      Except.error ("read: image payload is empty (" ++ filePath ++ ")")
    else
      match sniff d with
      | none => Except.ok result
      | some sniffed =>
        if !(strStartsWith sniffed "image/") then
          Except.error ("read: file looks like " ++ sniffed ++ " but was treated as " ++
            m ++ " (" ++ filePath ++ ")")
        else if sniffed = m then Except.ok result
        else Except.ok (applySniffedMime sniffed result)
  | _ => Except.ok result

/-- The `.ignore` filesystem of the layered-negation scenario: the workspace
root `/root` holds `secret.txt`, its subdirectory `/root/sub` holds
`!secret.txt`. -/
def envLayered : List String → Option String := fun d =>
  if d = ["root"] then some "secret.txt"
  else if d = ["root", "sub"] then some "!secret.txt"
  else none

/-! ### Record lemmas -/

theorem getK_setK_self (r : JObj) (key : String) (v : JVal) :
    getK (setK r key v) key = some v := by
  induction r with
  | nil => simp [setK, getK]
  | cons p r ih =>
    obtain ⟨pk, pv⟩ := p
    by_cases h : pk = key
    · simp [setK, h, getK]
    · simp [setK, h, getK, ih]

theorem getK_setK_ne (r : JObj) (k key : String) (v : JVal) (h : k ≠ key) :
    getK (setK r key v) k = getK r k := by
  induction r with
  | nil => simp [setK, getK, Ne.symm h]
  | cons p r ih =>
    obtain ⟨pk, pv⟩ := p
    by_cases hp : pk = key
    · subst hp
      simp [setK, getK, Ne.symm h]
    · simp only [setK, if_neg hp, getK]
      by_cases hk : pk = k <;> simp [hk, ih]

theorem getK_delK_self (r : JObj) (key : String) : getK (delK r key) key = none := by
  induction r with
  | nil => simp [delK, getK]
  | cons p r ih =>
    obtain ⟨pk, pv⟩ := p
    by_cases h : pk = key
    · simp [delK, h, ih]
    · simp [delK, h, getK, ih]

theorem getK_delK_ne (r : JObj) (k key : String) (h : k ≠ key) :
    getK (delK r key) k = getK r k := by
  induction r with
  | nil => simp [delK]
  | cons p r ih =>
    obtain ⟨pk, pv⟩ := p
    by_cases hp : pk = key
    · subst hp
      simp [delK, getK, Ne.symm h, ih]
    · simp only [delK, if_neg hp, getK]
      by_cases hk : pk = k <;> simp [hk, ih]

theorem getK_rewriteAlias_ne (c a k : String) (r : JObj) (hc : k ≠ c) (ha : k ≠ a) :
    getK (rewriteAlias c a r) k = getK r k := by
  unfold rewriteAlias
  split
  · rw [getK_delK_ne _ _ _ ha, getK_setK_ne _ _ _ _ hc]
  · rfl

theorem hasK_rewriteAlias_ne (c a k : String) (r : JObj) (hc : k ≠ c) (ha : k ≠ a) :
    hasK (rewriteAlias c a r) k = hasK r k := by
  simp [hasK, getK_rewriteAlias_ne c a k r hc ha]

theorem rewriteAlias_of_hasK (c a : String) (r : JObj) (hc : hasK r c = true) :
    rewriteAlias c a r = r := by
  unfold rewriteAlias
  simp [hc]

theorem rewriteAlias_moves (c a : String) (r : JObj) (hca : c ≠ a)
    (ha : hasK r a = true) (hc : hasK r c = false) :
    getK (rewriteAlias c a r) c = getK r a ∧ getK (rewriteAlias c a r) a = none := by
  obtain ⟨w, hw⟩ := Option.isSome_iff_exists.mp ha
  have hcond : (hasK r a && !(hasK r c)) = true := by simp [ha, hc]
  unfold rewriteAlias
  rw [if_pos hcond]
  constructor
  · rw [getK_delK_ne _ _ _ hca, getK_setK_self, hw]
    simp
  · exact getK_delK_self _ _

/-! ### Claim C3: normalization with both canonical and alias keys present -/

/-- Claim C3, counterexample: for the argument object with both `path` and
`file_path`, `normalizeToolParams` keeps the alias key `file_path` present
(the source deletes an alias only when it rewrites it), contradicting the
claim that the alias key is absent from the result. -/
theorem c3_both_keys_cex :
    (normalizeToolParams (JVal.obj [("path", JVal.str "a"), ("file_path", JVal.str "b")])).map
      (fun n => hasK n "file_path") = some true := by rfl

/-- Claim C3 (amended): for every argument object containing both a canonical
key and its legacy alias key, `normalizeToolParams` leaves both untouched: the
canonical key keeps its originally supplied value, and the alias key is also
retained with its value (it is removed only when it is rewritten, which
requires the canonical key to be absent). -/
theorem c3_both_keys (r : JObj) (c a : String) (hmem : (c, a) ∈ aliasPairs)
    (hc : hasK r c = true) (ha : hasK r a = true) :
    (normalizeToolParams (JVal.obj r)).map (fun n => getK n c) = some (getK r c) ∧
    (normalizeToolParams (JVal.obj r)).map (fun n => getK n a) = some (getK r a) := by
  have hnorm : normalizeToolParams (JVal.obj r) = some (normalizeRecord r) := rfl
  rw [hnorm]
  simp only [Option.map_some', Option.some.injEq]
  unfold normalizeRecord
  simp only [aliasPairs, List.mem_cons, List.not_mem_nil, or_false, Prod.mk.injEq] at hmem
  rcases hmem with ⟨rfl, rfl⟩ | ⟨rfl, rfl⟩ | ⟨rfl, rfl⟩
  · rw [rewriteAlias_of_hasK _ _ _ hc]
    constructor
    · rw [getK_rewriteAlias_ne _ _ _ _ (by decide) (by decide),
        getK_rewriteAlias_ne _ _ _ _ (by decide) (by decide)]
    · rw [getK_rewriteAlias_ne _ _ _ _ (by decide) (by decide),
        getK_rewriteAlias_ne _ _ _ _ (by decide) (by decide)]
  · have hc1 : hasK (rewriteAlias "path" "file_path" r) "oldText" = true := by
      rw [hasK_rewriteAlias_ne _ _ _ _ (by decide) (by decide)]; exact hc
    rw [rewriteAlias_of_hasK _ _ _ hc1]
    constructor
    · rw [getK_rewriteAlias_ne _ _ _ _ (by decide) (by decide),
        getK_rewriteAlias_ne _ _ _ _ (by decide) (by decide)]
    · rw [getK_rewriteAlias_ne _ _ _ _ (by decide) (by decide),
        getK_rewriteAlias_ne _ _ _ _ (by decide) (by decide)]
  · have hc1 : hasK (rewriteAlias "path" "file_path" r) "newText" = true := by
      rw [hasK_rewriteAlias_ne _ _ _ _ (by decide) (by decide)]; exact hc
    have hc2 : hasK (rewriteAlias "oldText" "old_string"
        (rewriteAlias "path" "file_path" r)) "newText" = true := by
      rw [hasK_rewriteAlias_ne _ _ _ _ (by decide) (by decide)]; exact hc1
    rw [rewriteAlias_of_hasK _ _ _ hc2]
    constructor
    · rw [getK_rewriteAlias_ne _ _ _ _ (by decide) (by decide),
        getK_rewriteAlias_ne _ _ _ _ (by decide) (by decide)]
    · rw [getK_rewriteAlias_ne _ _ _ _ (by decide) (by decide),
        getK_rewriteAlias_ne _ _ _ _ (by decide) (by decide)]

/-- Claim C3, witness: the amended theorem applied to the concrete object
with `path = "x"` and `file_path = "y"`. -/
theorem c3_both_keys_witness :
    (normalizeToolParams (JVal.obj [("path", JVal.str "x"), ("file_path", JVal.str "y")])).map
        (fun n => getK n "path") = some (some (JVal.str "x")) ∧
    (normalizeToolParams (JVal.obj [("path", JVal.str "x"), ("file_path", JVal.str "y")])).map
        (fun n => getK n "file_path") = some (some (JVal.str "y")) := by
  have h := c3_both_keys [("path", JVal.str "x"), ("file_path", JVal.str "y")]
    "path" "file_path" (by decide) rfl rfl
  exact ⟨h.1.trans rfl, h.2.trans rfl⟩

/-! ### Claim C7: normalization with only the alias key present -/

/-- Claim C7, counterexample: the object `{file_path: "a", old_string: "b"}`
contains the alias `file_path` and not the canonical `path`, yet normalization
does not leave the other key `old_string` unchanged — it is rewritten to
`oldText` by its own alias rule, so "all other keys unchanged" fails as
universally stated. -/
theorem c7_alias_only_cex :
    getK [("file_path", JVal.str "a"), ("old_string", JVal.str "b")] "old_string" =
      some (JVal.str "b") ∧
    (normalizeToolParams
        (JVal.obj [("file_path", JVal.str "a"), ("old_string", JVal.str "b")])).map
      (fun n => getK n "old_string") = some none := by
  exact ⟨rfl, rfl⟩

/-- Claim C7 (amended): for every argument object containing a legacy alias
key and not its canonical key, `normalizeToolParams` binds the canonical key
to the alias's value, removes the alias key, and leaves every key outside the
three canonical/alias pairs unchanged (alias keys of the other pairs are
likewise rewritten when their own canonical key is absent). -/
theorem c7_alias_only (r : JObj) (c a : String) (hmem : (c, a) ∈ aliasPairs)
    (ha : hasK r a = true) (hc : hasK r c = false) :
    (normalizeToolParams (JVal.obj r)).map (fun n => getK n c) = some (getK r a) ∧
    (normalizeToolParams (JVal.obj r)).map (fun n => hasK n a) = some false ∧
    ∀ k, k ∉ aliasPairKeys →
      (normalizeToolParams (JVal.obj r)).map (fun n => getK n k) = some (getK r k) := by
  have hnorm : normalizeToolParams (JVal.obj r) = some (normalizeRecord r) := rfl
  rw [hnorm]
  simp only [Option.map_some', Option.some.injEq]
  unfold normalizeRecord
  simp only [aliasPairs, List.mem_cons, List.not_mem_nil, or_false, Prod.mk.injEq] at hmem
  have hother : ∀ k, k ∉ aliasPairKeys →
      getK (rewriteAlias "newText" "new_string"
        (rewriteAlias "oldText" "old_string" (rewriteAlias "path" "file_path" r))) k =
        getK r k := by
    intro k hk
    simp only [aliasPairKeys, List.mem_cons, List.not_mem_nil, or_false, not_or] at hk
    obtain ⟨h1, h2, h3, h4, h5, h6⟩ := hk
    rw [getK_rewriteAlias_ne _ _ _ _ h5 h6, getK_rewriteAlias_ne _ _ _ _ h3 h4,
      getK_rewriteAlias_ne _ _ _ _ h1 h2]
  rcases hmem with ⟨rfl, rfl⟩ | ⟨rfl, rfl⟩ | ⟨rfl, rfl⟩
  · obtain ⟨hmv, hgone⟩ := rewriteAlias_moves "path" "file_path" r (by decide) ha hc
    refine ⟨?_, ?_, hother⟩
    · rw [getK_rewriteAlias_ne _ _ _ _ (by decide) (by decide),
        getK_rewriteAlias_ne _ _ _ _ (by decide) (by decide), hmv]
    · rw [hasK, getK_rewriteAlias_ne _ _ _ _ (by decide) (by decide),
        getK_rewriteAlias_ne _ _ _ _ (by decide) (by decide), hgone]
      rfl
  · have ha1 : hasK (rewriteAlias "path" "file_path" r) "old_string" = true := by
      rw [hasK_rewriteAlias_ne _ _ _ _ (by decide) (by decide)]; exact ha
    have hc1 : hasK (rewriteAlias "path" "file_path" r) "oldText" = false := by
      rw [hasK_rewriteAlias_ne _ _ _ _ (by decide) (by decide)]; exact hc
    obtain ⟨hmv, hgone⟩ := rewriteAlias_moves "oldText" "old_string"
      (rewriteAlias "path" "file_path" r) (by decide) ha1 hc1
    refine ⟨?_, ?_, hother⟩
    · rw [getK_rewriteAlias_ne _ _ _ _ (by decide) (by decide), hmv,
        getK_rewriteAlias_ne _ _ _ _ (by decide) (by decide)]
    · rw [hasK, getK_rewriteAlias_ne _ _ _ _ (by decide) (by decide), hgone]
      rfl
  · have ha2 : hasK (rewriteAlias "oldText" "old_string"
        (rewriteAlias "path" "file_path" r)) "new_string" = true := by
      rw [hasK_rewriteAlias_ne _ _ _ _ (by decide) (by decide),
        hasK_rewriteAlias_ne _ _ _ _ (by decide) (by decide)]
      exact ha
    have hc2 : hasK (rewriteAlias "oldText" "old_string"
        (rewriteAlias "path" "file_path" r)) "newText" = false := by
      rw [hasK_rewriteAlias_ne _ _ _ _ (by decide) (by decide),
        hasK_rewriteAlias_ne _ _ _ _ (by decide) (by decide)]
      exact hc
    obtain ⟨hmv, hgone⟩ := rewriteAlias_moves "newText" "new_string"
      (rewriteAlias "oldText" "old_string" (rewriteAlias "path" "file_path" r))
      (by decide) ha2 hc2
    refine ⟨?_, ?_, hother⟩
    · rw [hmv, getK_rewriteAlias_ne _ _ _ _ (by decide) (by decide),
        getK_rewriteAlias_ne _ _ _ _ (by decide) (by decide)]
    · rw [hasK, hgone]
      rfl

/-- Claim C7, witness: the amended theorem applied to the concrete object
with `old_string = "z"` and an unrelated key `extra`. -/
theorem c7_alias_only_witness :
    (normalizeToolParams (JVal.obj [("old_string", JVal.str "z"), ("extra", JVal.num 7)])).map
        (fun n => getK n "oldText") = some (some (JVal.str "z")) ∧
    (normalizeToolParams (JVal.obj [("old_string", JVal.str "z"), ("extra", JVal.num 7)])).map
        (fun n => hasK n "old_string") = some false ∧
    (normalizeToolParams (JVal.obj [("old_string", JVal.str "z"), ("extra", JVal.num 7)])).map
        (fun n => getK n "extra") = some (some (JVal.num 7)) := by
  have h := c7_alias_only [("old_string", JVal.str "z"), ("extra", JVal.num 7)]
    "oldText" "old_string" (by decide) rfl rfl
  exact ⟨h.1.trans rfl, h.2.1, (h.2.2 "extra" (by decide)).trans rfl⟩

/-! ### Claim C1: layered negation in the ignore policy -/

/-- Claim C1: with `.ignore` at the workspace root `/root` containing
`secret.txt` and `.ignore` in `/root/sub` containing `!secret.txt`,
`checkIgnorePolicy` permits `/root/sub/secret.txt` (the deeper negation
overrides the shallower exclusion) and blocks `/root/secret.txt` with the
access-denied error. -/
theorem c1_layered_negation :
    (checkIgnorePolicy envLayered [] ["root", "sub", "secret.txt"] ["root"]).1 =
      Except.ok () ∧
    (checkIgnorePolicy envLayered [] ["root", "secret.txt"] ["root"]).1 =
      Except.error "Access denied: Path /root/secret.txt is ignored by .ignore policy." :=
  ⟨rfl, rfl⟩

/-! ### Claim C2: root-anchored rule scoping -/

/-- Claim C2, counterexample: in the anchor directory itself (empty prefix)
the scoping transformation turns the root-anchored rule `/foo` into the
unanchored rule `foo`, which the matcher applies to the same-named path
`sub/foo` in a deeper subdirectory, although the original root-anchored rule
does not name that path. -/
theorem c2_root_anchor_cex :
    scopeIgnoreLine "" "/foo" = some "foo" ∧
    igIgnores ["foo"] ["sub", "foo"] = true ∧
    rootAnchoredLineMatches "/foo" ["sub", "foo"] = false := by
  decide

theorem decide_prefix_eq_isPrefixOf (l₁ l₂ : List String) :
    decide (l₁ <+: l₂) = l₁.isPrefixOf l₂ := by
  cases hb : l₁.isPrefixOf l₂ with
  | true => simp [List.isPrefixOf_iff_prefix.mp hb]
  | false =>
    have hnp : ¬ (l₁ <+: l₂) := fun hp => by
      simp [List.isPrefixOf_iff_prefix.mpr hp] at hb
    simp [hnp]

theorem strMk_data (s : String) : String.mk s.data = s := rfl

theorem strData_append (a b : String) : (a ++ b).data = a.data ++ b.data := rfl

theorem strData_ext (a b : String) (h : a.data = b.data) : a = b := by
  cases a
  cases b
  cases h
  rfl

theorem splitCharsOn_not_mem (c : Char) (l : List Char) (h : c ∉ l) :
    splitCharsOn c l = [l] := by
  induction l with
  | nil => rfl
  | cons x xs ih =>
    have hx : x ≠ c := fun he => h (by simp [he])
    have ihh : splitCharsOn c xs = [xs] := ih fun hm => h (List.mem_cons_of_mem x hm)
    simp [splitCharsOn, ihh, hx]

theorem splitCharsOn_append (c : Char) (l1 l2 : List Char) (h : c ∉ l1) :
    splitCharsOn c (l1 ++ c :: l2) = l1 :: splitCharsOn c l2 := by
  induction l1 with
  | nil => simp [splitCharsOn]
  | cons x xs ih =>
    have hx : x ≠ c := fun he => h (by simp [he])
    have ihh := ih fun hm => h (List.mem_cons_of_mem x hm)
    simp [splitCharsOn, ihh, hx]

theorem intercalate_go_data (sep : String) (as : List String) :
    ∀ acc : String, (String.intercalate.go acc sep as).data =
      acc.data ++ as.flatMap (fun s => sep.data ++ s.data) := by
  induction as with
  | nil => intro acc; simp [String.intercalate.go]
  | cons a as ih =>
    intro acc
    rw [String.intercalate.go, ih]
    simp [strData_append, List.flatMap_cons, List.append_assoc]

theorem intercalate_slash_data (a : String) (as : List String) :
    (String.intercalate "/" (a :: as)).data =
      a.data ++ as.flatMap (fun s => '/' :: s.data) := by
  rw [String.intercalate, intercalate_go_data]
  simp

theorem mem_intercalate_slash_data (a : String) (as : List String) (c : Char)
    (hc : c ∈ (String.intercalate "/" (a :: as)).data) :
    c = '/' ∨ ∃ s ∈ a :: as, c ∈ s.data := by
  rw [intercalate_slash_data] at hc
  rcases List.mem_append.mp hc with h | h
  · exact Or.inr ⟨a, by simp, h⟩
  · rcases List.mem_flatMap.mp h with ⟨s, hs, hcs⟩
    rcases List.mem_cons.mp hcs with rfl | h2
    · exact Or.inl rfl
    · exact Or.inr ⟨s, by simp [hs], h2⟩

theorem splitSlash_aux (as : List String) : ∀ a : String, '/' ∉ a.data →
    (∀ s ∈ as, '/' ∉ s.data) →
    (splitCharsOn '/' (a.data ++ as.flatMap (fun s => '/' :: s.data))).map String.mk =
      a :: as := by
  induction as with
  | nil =>
    intro a ha _
    rw [List.flatMap_nil, List.append_nil, splitCharsOn_not_mem '/' a.data ha]
    simp [strMk_data]
  | cons b bs ih =>
    intro a ha hs
    rw [List.flatMap_cons]
    have hre : a.data ++ (('/' :: b.data) ++ bs.flatMap (fun s => '/' :: s.data)) =
        a.data ++ '/' :: (b.data ++ bs.flatMap (fun s => '/' :: s.data)) := by simp
    rw [hre, splitCharsOn_append '/' _ _ ha, List.map_cons, strMk_data]
    congr 1
    exact ih b (hs b (by simp)) fun s hsm => hs s (by simp [hsm])

theorem splitSlash_intercalate (segs : List String) (hne : segs ≠ [])
    (hs : ∀ s ∈ segs, '/' ∉ s.data) :
    strSplitSlash (String.intercalate "/" segs) = segs := by
  obtain ⟨a, as, rfl⟩ := List.exists_cons_of_ne_nil hne
  unfold strSplitSlash
  rw [intercalate_slash_data]
  exact splitSlash_aux as a (hs a (by simp)) fun s hm => hs s (by simp [hm])

theorem dropWhile_no_ws (l : List Char) (h : ∀ c ∈ l, c.isWhitespace = false) :
    l.dropWhile Char.isWhitespace = l := by
  cases l with
  | nil => rfl
  | cons x xs => simp [List.dropWhile_cons, h x (by simp)]

theorem strTrim_no_ws (s : String) (h : ∀ c ∈ s.data, c.isWhitespace = false) :
    strTrim s = s := by
  unfold strTrim trimChars
  rw [dropWhile_no_ws s.data h,
    dropWhile_no_ws _ fun c hc => h c (List.mem_reverse.mp hc),
    List.reverse_reverse, strMk_data]

theorem charsContains_eq_false (c : Char) (l : List Char) (h : c ∉ l) :
    l.contains c = false := by
  cases hc : l.contains c with
  | false => rfl
  | true => exact absurd (List.elem_iff.mp hc) h

theorem bang_isPrefixOf_false (l : List Char) (h : ∀ c ∈ l, c ≠ '!') :
    List.isPrefixOf ['!'] l = false := by
  cases l with
  | nil => rfl
  | cons x xs => simp [List.isPrefixOf, Ne.symm (h x (by simp))]

theorem strDrop1_slash (s : String) : strDrop1 ("/" ++ s) = s := rfl

theorem scopeIgnoreLine_slash (pfx bodyStr : String)
    (hws : ∀ c ∈ bodyStr.data, c.isWhitespace = false) :
    scopeIgnoreLine pfx ("/" ++ bodyStr) = some (pfx ++ bodyStr) := by
  have hdata : ("/" ++ bodyStr).data = '/' :: bodyStr.data := rfl
  have hall : ∀ c ∈ ("/" ++ bodyStr).data, c.isWhitespace = false := by
    rw [hdata]
    intro c hc
    rcases List.mem_cons.mp hc with rfl | hc2
    · decide
    · exact hws c hc2
  have htrim := strTrim_no_ws _ hall
  have hne2 : ¬("/" ++ bodyStr) = "" := by
    intro he
    have hd2 : ("/" ++ bodyStr).data = [] := by rw [he]
    rw [hdata] at hd2
    cases hd2
  have hhash : strStartsWith ("/" ++ bodyStr) "#" = false := rfl
  have hbang : strStartsWith ("/" ++ bodyStr) "!" = false := rfl
  have hslash : strStartsWith ("/" ++ bodyStr) "/" = true := by
    show List.isPrefixOf ("/" : String).data ("/" ++ bodyStr).data = true
    rw [hdata, show ("/" : String).data = ['/'] from rfl]
    simp [List.isPrefixOf]
  unfold scopeIgnoreLine
  rw [htrim]
  simp [hne2, hhash, hbang, hslash, strDrop1_slash]

theorem relSegs_append (l m : List String) : relSegs l (l ++ m) = m := by
  induction l with
  | nil => rfl
  | cons a as ih => simp [relSegs, ih]

theorem isPrefixOf_append_eq (l1 l2 r : List String) :
    (l1 ++ l2).isPrefixOf r = (l1.isPrefixOf r && l2.isPrefixOf (r.drop l1.length)) := by
  induction l1 generalizing r with
  | nil => simp [List.isPrefixOf]
  | cons a as ih =>
    cases r with
    | nil => simp [List.isPrefixOf]
    | cons b bs =>
      simp only [List.cons_append, List.isPrefixOf, List.length_cons,
        List.drop_succ_cons]
      cases hab : a == b with
      | false => simp
      | true => simp [ih]

theorem igIgnores_singleton (s : String) (rel : List String) :
    igIgnores [s] rel =
      (if segsMatch (parseIgnRule s) rel then !(parseIgnRule s).neg else false) := rfl

theorem igIgnores_singleton_anchored (s : String) (segs rel : List String)
    (h : parseIgnRule s = { neg := false, segs := segs, anchored := true }) :
    igIgnores [s] rel = segs.isPrefixOf rel := by
  rw [igIgnores_singleton, h]
  cases hp : segs.isPrefixOf rel <;> simp [segsMatch, hp]

theorem igIgnores_singleton_unanchored (s b : String) (rel : List String)
    (h : parseIgnRule s = { neg := false, segs := [b], anchored := false }) :
    igIgnores [s] rel = rel.contains b := by
  rw [igIgnores_singleton, h]
  cases hc : rel.contains b with
  | false =>
    have hm : b ∉ rel := fun hmem => by
      have ht : rel.contains b = true := List.elem_iff.mpr hmem
      rw [hc] at ht
      cases ht
    simp [segsMatch, hm, hc]
  | true =>
    have hm : b ∈ rel := List.elem_iff.mp hc
    simp [segsMatch, hm, hc]

theorem parseIgnRule_plain_single (b : String)
    (hplain : ∀ c ∈ b.data, c ≠ '/' ∧ c ≠ '!') :
    parseIgnRule b = { neg := false, segs := [b], anchored := false } := by
  have hbang : strStartsWith b "!" = false :=
    bang_isPrefixOf_false b.data fun c hc => (hplain c hc).2
  have hcont : strContainsChar b '/' = false :=
    charsContains_eq_false '/' b.data fun hm => (hplain '/' hm).1 rfl
  have hsplit : strSplitSlash b = [b] := by
    unfold strSplitSlash
    rw [splitCharsOn_not_mem '/' b.data fun hm => (hplain '/' hm).1 rfl]
    simp [strMk_data]
  simp [parseIgnRule, hbang, hcont, hsplit]

theorem parseIgnRule_plain_multi (a : String) (as : List String) (hne : as ≠ [])
    (hplain : ∀ s ∈ a :: as, s.data ≠ [] ∧ ∀ c ∈ s.data, c ≠ '/' ∧ c ≠ '!') :
    parseIgnRule (String.intercalate "/" (a :: as)) =
      { neg := false, segs := a :: as, anchored := true } := by
  obtain ⟨a2, rest, rfl⟩ := List.exists_cons_of_ne_nil hne
  have hnobang : ∀ c ∈ (String.intercalate "/" (a :: a2 :: rest)).data, c ≠ '!' := by
    intro c hc
    rcases mem_intercalate_slash_data a (a2 :: rest) c hc with rfl | ⟨s, hsm, hcs⟩
    · decide
    · exact ((hplain s hsm).2 c hcs).2
  have hbang : strStartsWith (String.intercalate "/" (a :: a2 :: rest)) "!" = false :=
    bang_isPrefixOf_false _ hnobang
  have hmem : '/' ∈ (String.intercalate "/" (a :: a2 :: rest)).data := by
    rw [intercalate_slash_data]
    exact List.mem_append.mpr (Or.inr (List.mem_flatMap.mpr ⟨a2, by simp, by simp⟩))
  have hcont : strContainsChar (String.intercalate "/" (a :: a2 :: rest)) '/' = true :=
    List.elem_iff.mpr hmem
  have hsplit := splitSlash_intercalate (a :: a2 :: rest) (by simp)
    fun s hm hmem2 => ((hplain s hm).2 '/' hmem2).1 rfl
  simp [parseIgnRule, hbang, hcont, hsplit]

/-- Claim C2 (amended): for every `.ignore` rule with a leading `/` whose body
is made of plain literal segments (nonempty, free of `/`, `!`, and whitespace
characters) and every directory `anchorDir ++ dsegs` of the chain: (1) the
scoping of `checkIgnorePolicy` turns the rule into the anchor-relative rule
`dsegs/body`; (2) whenever the scoped rule has at least two segments — every
non-anchor directory, and the anchor with a multi-segment body — the matcher
applies it exactly as the original root-anchored rule of that directory: it
matches a path precisely when the path lies under the directory and the
original rule matches the remainder, so never a same-named path in a deeper
subdirectory and nothing outside the directory's subtree; (3) but when the
directory is the anchor itself and the body is a single segment, anchoring is
lost: the scoped rule matches its segment at any depth. -/
theorem c2_scoping (anchorDir dsegs bodySegs rel : List String) (hb : bodySegs ≠ [])
    (hplain : ∀ s ∈ dsegs ++ bodySegs, s.data ≠ [] ∧
      ∀ c ∈ s.data, c ≠ '/' ∧ c ≠ '!' ∧ c.isWhitespace = false) :
    scopedRulesFor
        (fun d => if d = anchorDir ++ dsegs
          then some ("/" ++ String.intercalate "/" bodySegs) else none)
        anchorDir (anchorDir ++ dsegs) =
      [String.intercalate "/" (dsegs ++ bodySegs)] ∧
    (2 ≤ (dsegs ++ bodySegs).length →
      igIgnores [String.intercalate "/" (dsegs ++ bodySegs)] rel =
        (dsegs.isPrefixOf rel &&
          rootAnchoredLineMatches ("/" ++ String.intercalate "/" bodySegs)
            (rel.drop dsegs.length))) ∧
    (∀ b : String, dsegs = [] → bodySegs = [b] →
      igIgnores [String.intercalate "/" (dsegs ++ bodySegs)] rel = rel.contains b) := by
  obtain ⟨b0, brest, rfl⟩ := List.exists_cons_of_ne_nil hb
  have hplainB : ∀ s ∈ b0 :: brest, s.data ≠ [] ∧
      ∀ c ∈ s.data, c ≠ '/' ∧ c ≠ '!' ∧ c.isWhitespace = false :=
    fun s hm => hplain s (List.mem_append_right _ hm)
  have hplainD : ∀ s ∈ dsegs, s.data ≠ [] ∧
      ∀ c ∈ s.data, c ≠ '/' ∧ c ≠ '!' ∧ c.isWhitespace = false :=
    fun s hm => hplain s (List.mem_append_left _ hm)
  have hwsB : ∀ c ∈ (String.intercalate "/" (b0 :: brest)).data,
      c.isWhitespace = false := by
    intro c hc
    rcases mem_intercalate_slash_data b0 brest c hc with rfl | ⟨s, hsm, hcs⟩
    · decide
    · exact ((hplainB s hsm).2 c hcs).2.2
  have hlineNoLF : '\n' ∉ ("/" ++ String.intercalate "/" (b0 :: brest)).data := by
    intro hm
    have hld : ("/" ++ String.intercalate "/" (b0 :: brest)).data =
        '/' :: (String.intercalate "/" (b0 :: brest)).data := rfl
    rw [hld] at hm
    rcases List.mem_cons.mp hm with he | hm2
    · exact absurd he (by decide)
    · have hw := hwsB '\n' hm2
      rw [show ('\n').isWhitespace = true from rfl] at hw
      cases hw
  have hlines : strSplitLines ("/" ++ String.intercalate "/" (b0 :: brest)) =
      ["/" ++ String.intercalate "/" (b0 :: brest)] := by
    unfold strSplitLines
    rw [splitCharsOn_not_mem '\n' _ hlineNoLF, List.map_cons, List.map_nil, strMk_data]
  have hsplitB : strSplitSlash (String.intercalate "/" (b0 :: brest)) = b0 :: brest :=
    splitSlash_intercalate (b0 :: brest) (by simp)
      fun s hm hmem2 => (((hplainB s hm).2 '/' hmem2).1 rfl)
  have henv : (fun d => if d = anchorDir ++ dsegs
      then some ("/" ++ String.intercalate "/" (b0 :: brest)) else none)
      (anchorDir ++ dsegs) = some ("/" ++ String.intercalate "/" (b0 :: brest)) := by
    simp
  refine ⟨?_, ?_, ?_⟩
  · unfold scopedRulesFor
    rw [henv]
    dsimp only
    rw [relSegs_append, hlines]
    by_cases hd : dsegs = []
    · subst hd
      simp only [List.append_nil, if_true]
      simp only [List.filterMap_cons, List.filterMap_nil,
        scopeIgnoreLine_slash "" _ hwsB]
      rw [show ("" : String) ++ String.intercalate "/" (b0 :: brest) =
        String.intercalate "/" (b0 :: brest) from rfl]
      simp
    · obtain ⟨d0, drest, rfl⟩ := List.exists_cons_of_ne_nil hd
      have hdir : ¬(anchorDir ++ d0 :: drest = anchorDir) := by
        intro he
        simp at he
      have hp0ne : String.intercalate "/" (d0 :: drest) ≠ "" := by
        intro he
        have hdd : (String.intercalate "/" (d0 :: drest)).data = [] := by rw [he]
        rw [intercalate_slash_data] at hdd
        exact (hplainD d0 (by simp)).1 (List.append_eq_nil.mp hdd).1
      have hbne : (String.intercalate "/" (d0 :: drest) != "") = true := by
        simp [bne_iff_ne, hp0ne]
      rw [if_neg hdir, if_pos hbne]
      simp only [List.filterMap_cons, List.filterMap_nil,
        scopeIgnoreLine_slash _ _ hwsB]
      refine congrArg (fun x => [x]) (strData_ext _ _ ?_)
      rw [strData_append, strData_append, intercalate_slash_data,
        show ((d0 :: drest) ++ (b0 :: brest) : List String) =
          d0 :: (drest ++ b0 :: brest) from rfl,
        intercalate_slash_data, intercalate_slash_data]
      simp [List.flatMap_append, List.flatMap_cons, List.append_assoc]
  · intro hlen
    by_cases hd : dsegs = []
    · subst hd
      have hbrest : brest ≠ [] := by
        intro he
        subst he
        simp at hlen
      have hparse := parseIgnRule_plain_multi b0 brest hbrest
        fun s hm => ⟨(hplainB s hm).1,
          fun c hc => ⟨((hplainB s hm).2 c hc).1, ((hplainB s hm).2 c hc).2.1⟩⟩
      simp only [List.nil_append]
      rw [igIgnores_singleton_anchored _ _ rel hparse]
      unfold rootAnchoredLineMatches
      rw [strDrop1_slash, hsplitB]
      simp [List.isPrefixOf]
    · obtain ⟨d0, drest, rfl⟩ := List.exists_cons_of_ne_nil hd
      have hparse := parseIgnRule_plain_multi d0 (drest ++ b0 :: brest) (by simp)
        fun s hm => by
          have hm2 : s ∈ (d0 :: drest) ++ b0 :: brest := by simpa using hm
          exact ⟨(hplain s hm2).1,
            fun c hc => ⟨((hplain s hm2).2 c hc).1, ((hplain s hm2).2 c hc).2.1⟩⟩
      have hcons : ((d0 :: drest) ++ (b0 :: brest) : List String) =
          d0 :: (drest ++ b0 :: brest) := rfl
      rw [hcons]
      rw [igIgnores_singleton_anchored _ _ rel hparse]
      unfold rootAnchoredLineMatches
      rw [strDrop1_slash, hsplitB]
      exact isPrefixOf_append_eq (d0 :: drest) (b0 :: brest) rel
  · intro b hd hbeq
    subst hd
    injection hbeq with hb0 hbrest
    subst hbrest
    subst hb0
    have hparse := parseIgnRule_plain_single b0
      fun c hc => ⟨((hplainB b0 (by simp)).2 c hc).1, ((hplainB b0 (by simp)).2 c hc).2.1⟩
    rw [show String.intercalate "/" (([] : List String) ++ [b0]) = b0 from rfl]
    exact igIgnores_singleton_unanchored b0 b0 rel hparse

/-- Claim C2, witness: the amended theorem applied to the directory segments
`["sub"]` and rule `/foo` — the scoped rule `sub/foo` does not match the
same-named path in the deeper subdirectory `sub/zzz`. -/
theorem c2_scoping_witness : igIgnores ["sub/foo"] ["sub", "zzz", "foo"] = false := by
  have h := (c2_scoping ["root"] ["sub"] ["foo"] ["sub", "zzz", "foo"] (by decide)
    (by decide)).2.1 (by decide)
  exact h.trans (by decide)

/-! ### Claim C5: cached re-check is read-free and stable -/

/-- Claim C5: calling `checkIgnorePolicy` twice in succession for the same
absolute path and root against the same `.ignore` filesystem yields the same
decision both times, and the second call attempts no `.ignore` file reads —
the matcher is served from the (anchor, directory) cache produced by the
first call. -/
theorem c5_cache_idempotent (env : List String → Option String) (cache : IgnoreCache)
    (absoluteFilePath root : List String) :
    (checkIgnorePolicy env (checkIgnorePolicy env cache absoluteFilePath root).2.1
        absoluteFilePath root).1 =
      (checkIgnorePolicy env cache absoluteFilePath root).1 ∧
    (checkIgnorePolicy env (checkIgnorePolicy env cache absoluteFilePath root).2.1
        absoluteFilePath root).2.2 = 0 := by
  simp only [checkIgnorePolicy]
  cases h : cacheLookup cache
      (ignoreAnchorDir absoluteFilePath root, absoluteFilePath.dropLast) with
  | some rules => simp [h]
  | none => simp [h, cacheLookup]

/-! ### Claim C4: the sandbox guard never invokes the wrapped tool on failure -/

/-- Claim C4: for a call through the sandbox guard whose normalized `path`
argument is a non-blank string, if the sandbox resolution fails the call
rejects with that error and the wrapped tool's execute is never invoked
(invocation count 0); if resolution succeeds but the ignore policy denies the
resolved path, the call rejects with the access-denied error and the wrapped
execute is never invoked; only when both checks pass does the wrapped execute
run (count 1), on the normalized arguments. -/
theorem c4_guard_blocks_before_execute {α : Type}
    (sbx : String → List String → Except String (List String))
    (env : List String → Option String) (cache : IgnoreCache) (root : List String)
    (exec : JVal → Except String α) (args : JVal) (nr : JObj) (filePath : String)
    (hnorm : normalizeToolParams args = some nr)
    (hpath : getK nr "path" = some (JVal.str filePath))
    (hblank : strTrim filePath ≠ "") :
    (∀ e, sbx filePath root = Except.error e →
      wrapSandboxPathGuardExecute sbx env cache root exec args = (Except.error e, cache, 0)) ∧
    (∀ resolved e cache2 n, sbx filePath root = Except.ok resolved →
      checkIgnorePolicy env cache resolved root = (Except.error e, cache2, n) →
      wrapSandboxPathGuardExecute sbx env cache root exec args =
        (Except.error e, cache2, 0)) ∧
    (∀ resolved cache2 n, sbx filePath root = Except.ok resolved →
      checkIgnorePolicy env cache resolved root = (Except.ok (), cache2, n) →
      wrapSandboxPathGuardExecute sbx env cache root exec args =
        (exec (JVal.obj nr), cache2, 1)) := by
  refine ⟨?_, ?_, ?_⟩
  · intro e hsb
    simp [wrapSandboxPathGuardExecute, hnorm, hpath, hblank, hsb]
  · intro resolved e cache2 n hsb hig
    simp [wrapSandboxPathGuardExecute, hnorm, hpath, hblank, hsb, hig]
  · intro resolved cache2 n hsb hig
    simp [wrapSandboxPathGuardExecute, hnorm, hpath, hblank, hsb, hig]

/-- Claim C4, witness: with a resolver that rejects the path, the guarded
call fails with the resolver's error and the wrapped execute never runs. -/
theorem c4_guard_blocks_before_execute_witness :
    wrapSandboxPathGuardExecute (fun _ _ => Except.error "outside sandbox root")
        (fun _ => none) [] ["root"] (fun _ => Except.ok (0 : Nat))
        (JVal.obj [("path", JVal.str "/etc/passwd")]) =
      (Except.error "outside sandbox root", [], 0) :=
  (c4_guard_blocks_before_execute (fun _ _ => Except.error "outside sandbox root")
      (fun _ => none) [] ["root"] (fun _ => Except.ok (0 : Nat))
      (JVal.obj [("path", JVal.str "/etc/passwd")]) [("path", JVal.str "/etc/passwd")]
      "/etc/passwd" rfl rfl (by decide)).1 "outside sandbox root" rfl

/-! ### Claim C8: required-parameter assertion -/

theorem assertGroups_ok_iff (r : JObj) (groups : List RequiredParamGroup) :
    assertGroups r groups = Except.ok () ↔ ∀ g ∈ groups, groupSatisfied r g = true := by
  induction groups with
  | nil => simp [assertGroups]
  | cons g gs ih =>
    by_cases h : groupSatisfied r g <;> simp [assertGroups, h, ih]

theorem assertGroups_first_fail (r : JObj) (pre post : List RequiredParamGroup)
    (g : RequiredParamGroup) (hpre : ∀ g' ∈ pre, groupSatisfied r g' = true)
    (hg : groupSatisfied r g = false) :
    assertGroups r (pre ++ g :: post) =
      Except.error ("Missing required parameter: " ++ groupLabel g) := by
  induction pre with
  | nil => simp [assertGroups, hg]
  | cons p pre ih =>
    have hp : groupSatisfied r p = true := hpre p (by simp)
    simp only [List.cons_append, assertGroups, hp, if_true]
    exact ih fun g' hg' => hpre g' (by simp [hg'])

/-- Claim C8: `assertRequiredParams` fails with the "Missing parameters" error
when the argument record is absent (or not an object); on a record it accepts
exactly when every group in order has some alias key present with a string
value that is non-empty after trimming (or any string when the group allows
empty); and on the first unsatisfied group it fails with the "Missing required
parameter" error carrying that group's label, independently of every later
group. -/
theorem c8_assert_required_params :
    (∀ (groups : List RequiredParamGroup) (toolName : String),
      assertRequiredParams none groups toolName =
        Except.error ("Missing parameters for " ++ toolName)) ∧
    (∀ (r : JObj) (groups : List RequiredParamGroup) (toolName : String),
      assertRequiredParams (some r) groups toolName = Except.ok () ↔
        ∀ g ∈ groups, groupSatisfied r g = true) ∧
    (∀ (r : JObj) (pre post : List RequiredParamGroup) (g : RequiredParamGroup)
        (toolName : String),
      (∀ g' ∈ pre, groupSatisfied r g' = true) → groupSatisfied r g = false →
      assertRequiredParams (some r) (pre ++ g :: post) toolName =
        Except.error ("Missing required parameter: " ++ groupLabel g)) := by
  refine ⟨fun groups toolName => rfl, fun r groups toolName => assertGroups_ok_iff r groups,
    fun r pre post g toolName hpre hg => assertGroups_first_fail r pre post g hpre hg⟩

/-- Claim C8, witness: on the empty record, the read tool's path group (label
`path (path or file_path)`) is the first unsatisfied group and produces its
labelled error, with an unexamined group after it. -/
theorem c8_assert_required_params_witness :
    assertRequiredParams (some []) [⟨["path", "file_path"], false,
        some "path (path or file_path)"⟩, ⟨["later"], false, none⟩] "read" =
      Except.error "Missing required parameter: path (path or file_path)" := by
  have h := c8_assert_required_params.2.2 [] []
    [⟨["later"], false, none⟩] ⟨["path", "file_path"], false,
      some "path (path or file_path)"⟩ "read" (by simp) (by decide)
  exact h.trans rfl

/-! ### Claims C6 and C10: read-result image normalization -/

theorem isImageBlock_rewriteBlockMime (s : String) (b : ContentBlock) :
    isImageBlock (rewriteBlockMime s b) = isImageBlock b := by
  cases b <;> simp [isImageBlock, rewriteBlockMime]

theorem find?_image_map (s : String) (l : List ContentBlock) (d m : String)
    (h : l.find? isImageBlock = some (ContentBlock.image d m)) :
    (l.map (rewriteBlockMime s)).find? isImageBlock = some (ContentBlock.image d s) := by
  have hcomp : (isImageBlock ∘ rewriteBlockMime s) = isImageBlock := by
    funext b
    exact isImageBlock_rewriteBlockMime s b
  rw [List.find?_map, hcomp, h]
  rfl

/-- Claim C6: for a read result whose first image block has a non-empty
payload — if the sniffed type is an image type different from the declared
type, `normalizeReadImageResult` returns the rewritten result, whose image
block declares the sniffed type and whose `Read image file [..]` header text
blocks are rewritten to name the sniffed type; if the sniffed type is not an
image type, it fails with the type-mismatch error naming the sniffed type, the
declared type and the source path. -/
theorem c6_sniffed_type_decides (sniff : String → Option String)
    (result : AgentToolResult) (filePath d m : String)
    (hfind : result.content.find? isImageBlock = some (ContentBlock.image d m))
    (hne : strTrim d ≠ "") :
    (∀ s, sniff d = some s → strStartsWith s "image/" = true → s ≠ m →
      normalizeReadImageResult sniff result filePath =
        Except.ok (applySniffedMime s result) ∧
      (applySniffedMime s result).content.find? isImageBlock =
        some (ContentBlock.image d s) ∧
      (∀ t, strStartsWith t "Read image file [" = true → strEndsWith t "]" = true →
        rewriteReadImageHeader t s = "Read image file [" ++ s ++ "]") ∧
      (∀ (i : Nat) (t : String), result.content[i]? = some (ContentBlock.text t) →
        (applySniffedMime s result).content[i]? =
          some (ContentBlock.text (rewriteReadImageHeader t s)))) ∧
    (∀ s, sniff d = some s → strStartsWith s "image/" = false →
      normalizeReadImageResult sniff result filePath =
        Except.error ("read: file looks like " ++ s ++ " but was treated as " ++ m ++
          " (" ++ filePath ++ ")")) := by
  constructor
  · intro s hs himg hnem
    refine ⟨?_, find?_image_map s _ d m hfind, ?_, ?_⟩
    · simp [normalizeReadImageResult, hfind, hne, hs, himg, hnem]
    · intro t h1 h2
      simp [rewriteReadImageHeader, h1, h2]
    · intro i t ht
      simp [applySniffedMime, List.getElem?_map, ht, rewriteBlockMime]
  · intro s hs himg
    simp [normalizeReadImageResult, hfind, hne, hs, himg]

/-- Claim C6, witness: a result declaring `image/png` whose payload sniffs as
`image/jpeg` is rewritten, image block and header text both carrying the
sniffed type. -/
theorem c6_sniffed_type_decides_witness :
    normalizeReadImageResult (fun d => if d = "JJ" then some "image/jpeg" else none)
        { content := [ContentBlock.text "Read image file [image/png]",
            ContentBlock.image "JJ" "image/png"], isError := false } "pic.png" =
      Except.ok { content := [ContentBlock.text "Read image file [image/jpeg]",
        ContentBlock.image "JJ" "image/jpeg"], isError := false } := by
  have h := (c6_sniffed_type_decides (fun d => if d = "JJ" then some "image/jpeg" else none)
    { content := [ContentBlock.text "Read image file [image/png]",
        ContentBlock.image "JJ" "image/png"], isError := false }
    "pic.png" "JJ" "image/png" rfl (by decide)).1 "image/jpeg" rfl (by decide) (by decide)
  exact h.1.trans rfl

/-- Claim C10: when `normalizeReadImageResult` rewrites a result because the
sniffed type is an image type differing from the first image block's declared
type, every image block of the content has its declared media type set to the
sniffed value (its data preserved), every text block not matching the
read-image header pattern keeps its text, blocks of other kinds are unchanged,
the content's length (hence block order) is preserved, and the result's field
other than `content` is unchanged. -/
theorem c10_rewrite_frame (sniff : String → Option String)
    (result : AgentToolResult) (filePath d m s : String)
    (hfind : result.content.find? isImageBlock = some (ContentBlock.image d m))
    (hne : strTrim d ≠ "") (hs : sniff d = some s)
    (himg : strStartsWith s "image/" = true) (hnem : s ≠ m) :
    normalizeReadImageResult sniff result filePath =
      Except.ok (applySniffedMime s result) ∧
    (applySniffedMime s result).isError = result.isError ∧
    (applySniffedMime s result).content.length = result.content.length ∧
    (∀ (i : Nat) (d2 m2 : String), result.content[i]? = some (ContentBlock.image d2 m2) →
      (applySniffedMime s result).content[i]? = some (ContentBlock.image d2 s)) ∧
    (∀ (i : Nat) (t : String), result.content[i]? = some (ContentBlock.text t) →
      (strStartsWith t "Read image file [" && strEndsWith t "]") = false →
      (applySniffedMime s result).content[i]? = some (ContentBlock.text t)) ∧
    (∀ (i : Nat) (o : String), result.content[i]? = some (ContentBlock.other o) →
      (applySniffedMime s result).content[i]? = some (ContentBlock.other o)) := by
  refine ⟨?_, rfl, by simp [applySniffedMime], ?_, ?_, ?_⟩
  · simp [normalizeReadImageResult, hfind, hne, hs, himg, hnem]
  · intro i d2 m2 hi
    simp [applySniffedMime, List.getElem?_map, hi, rewriteBlockMime]
  · intro i t hi hpat
    simp [applySniffedMime, List.getElem?_map, hi, rewriteBlockMime,
      rewriteReadImageHeader, hpat]
  · intro i o hi
    simp [applySniffedMime, List.getElem?_map, hi, rewriteBlockMime]

/-- Claim C10, witness: in a result with two image blocks, an unrelated text
block and an opaque block, the rewrite driven by the first image block also
sets the second image block's type to the sniffed value. -/
theorem c10_rewrite_frame_witness :
    (applySniffedMime "image/webp"
        { content := [ContentBlock.other "resource", ContentBlock.image "QQ" "image/png",
            ContentBlock.text "hello", ContentBlock.image "Q2" "image/gif"],
          isError := true }).content[3]? =
      some (ContentBlock.image "Q2" "image/webp") :=
  (c10_rewrite_frame (fun d => if d = "QQ" then some "image/webp" else none)
      { content := [ContentBlock.other "resource", ContentBlock.image "QQ" "image/png",
          ContentBlock.text "hello", ContentBlock.image "Q2" "image/gif"],
        isError := true } "x.png" "QQ" "image/png" "image/webp"
      rfl (by decide) rfl (by decide) (by decide)).2.2.2.1 3 "Q2" "image/gif" rfl

/-! ### Claim C9: schema patching for alias compatibility -/

theorem requiredStrings_map_str (l : List String) :
    requiredStrings (some (JVal.arr (l.map JVal.str))) = l := by
  induction l with
  | nil => rfl
  | cons x xs ih =>
    simp only [requiredStrings, List.map_cons, List.filterMap_cons] at ih ⊢
    rw [ih]

theorem getK_patchStep_ne (st : JObj × List String × Bool) (pair : String × String)
    (k : String) (hk : k ≠ pair.2) : getK (patchStep st pair).1 k = getK st.1 k := by
  cases h1 : hasK st.1 pair.1 <;> cases h2 : hasK st.1 pair.2 <;>
    simp [patchStep, h1, h2, getK_setK_ne _ _ _ _ hk]

theorem hasK_patchStep_ne (st : JObj × List String × Bool) (pair : String × String)
    (k : String) (hk : k ≠ pair.2) : hasK (patchStep st pair).1 k = hasK st.1 k := by
  simp [hasK, getK_patchStep_ne st pair k hk]

theorem mem_req_patchStep (st : JObj × List String × Bool) (pair : String × String)
    (x : String) (hx : x ≠ pair.1) : x ∈ (patchStep st pair).2.1 ↔ x ∈ st.2.1 := by
  by_cases h1 : hasK st.1 pair.1 = true <;> by_cases h3 : pair.1 ∈ st.2.1 <;>
    simp [patchStep, h1, h3, List.mem_erase_of_ne hx]

theorem nodup_req_patchStep (st : JObj × List String × Bool) (pair : String × String)
    (h : st.2.1.Nodup) : (patchStep st pair).2.1.Nodup := by
  have herase : (st.2.1.erase pair.1).Nodup := h.erase pair.1
  by_cases h1 : hasK st.1 pair.1 = true <;> by_cases h3 : pair.1 ∈ st.2.1 <;>
    simp [patchStep, h1, h3, h, herase]

theorem patchStep_canonical (st : JObj × List String × Bool) (c a : String)
    (hc : hasK st.1 c = true) :
    hasK (patchStep st (c, a)).1 a = true ∧
    (hasK st.1 a = false → getK (patchStep st (c, a)).1 a = getK st.1 c) ∧
    (st.2.1.Nodup → c ∉ (patchStep st (c, a)).2.1) := by
  obtain ⟨w, hw⟩ := Option.isSome_iff_exists.mp hc
  refine ⟨?_, ?_, ?_⟩
  · by_cases h2 : hasK st.1 a = true
    · simp only [patchStep, hc, if_true, h2]
      simpa using h2
    · have h2n : getK st.1 a = none := by
        cases hg : getK st.1 a with
        | none => rfl
        | some v => rw [hasK, hg] at h2; exact absurd rfl h2
      simp [patchStep, hasK, hc, hw, h2n, getK_setK_self]
  · intro h2
    have h2n : getK st.1 a = none := by
      cases hg : getK st.1 a with
      | none => rfl
      | some v => rw [hasK, hg] at h2; cases h2
    simp [patchStep, hasK, hc, hw, h2n, getK_setK_self]
  · intro hnd
    by_cases h3 : c ∈ st.2.1
    · have hne : c ∉ st.2.1.erase c := hnd.not_mem_erase
      simp [patchStep, hc, h3, hne]
    · simp [patchStep, hc, h3]

theorem patchStep_unchanged (st : JObj × List String × Bool) (pair : String × String)
    (h : (patchStep st pair).2.2 = false) :
    st.2.2 = false ∧
    (hasK st.1 pair.1 = true → hasK st.1 pair.2 = true ∧ st.2.1.contains pair.1 = false) ∧
    patchStep st pair = st := by
  obtain ⟨props, req, ch⟩ := st
  by_cases h1 : hasK props pair.1 = true
  · by_cases ha : hasK props pair.2 = true
    · by_cases hr : pair.1 ∈ req
      · exfalso
        simp [patchStep, h1, ha, hr] at h
      · refine ⟨?_, fun _ => ⟨ha, ?_⟩, ?_⟩
        · simpa [patchStep, h1, ha, hr] using h
        · cases hcb : req.contains pair.1 with
          | false => rfl
          | true => exact absurd (List.elem_iff.mp hcb) hr
        · simp [patchStep, h1, ha, hr]
    · exfalso
      simp [patchStep, h1, ha] at h
  · refine ⟨by simpa [patchStep, h1] using h, ?_, by simp [patchStep, h1]⟩
    intro hcon
    simp [h1] at hcon

theorem patchStep_id (st : JObj × List String × Bool) (pair : String × String)
    (h : hasK st.1 pair.1 = true →
      hasK st.1 pair.2 = true ∧ st.2.1.contains pair.1 = false) :
    patchStep st pair = st := by
  obtain ⟨props, req, ch⟩ := st
  by_cases h1 : hasK props pair.1 = true
  · obtain ⟨ha, hr⟩ := h h1
    have hr2 : pair.1 ∉ req := by
      intro hm
      have hcb : req.contains pair.1 = true := List.elem_iff.mpr hm
      have hrr : req.contains pair.1 = false := hr
      rw [hcb] at hrr
      cases hrr
    simp [patchStep, h1, ha, hr2]
  · simp [patchStep, h1]

theorem aliasPairs_fold_eq (props : JObj) (req0 : List String) :
    aliasPairs.foldl patchStep (props, req0, false) =
      patchStep (patchStep (patchStep (props, req0, false) ("path", "file_path"))
        ("oldText", "old_string")) ("newText", "new_string") := rfl

theorem patch_fold_facts (props : JObj) (req0 : List String) (c a : String)
    (hmem : (c, a) ∈ aliasPairs) (hc : hasK props c = true) :
    hasK (aliasPairs.foldl patchStep (props, req0, false)).1 a = true ∧
    (hasK props a = false →
      getK (aliasPairs.foldl patchStep (props, req0, false)).1 a = getK props c) ∧
    (req0.Nodup → c ∉ (aliasPairs.foldl patchStep (props, req0, false)).2.1) := by
  rw [aliasPairs_fold_eq]
  simp only [aliasPairs, List.mem_cons, List.not_mem_nil, or_false, Prod.mk.injEq] at hmem
  rcases hmem with ⟨rfl, rfl⟩ | ⟨rfl, rfl⟩ | ⟨rfl, rfl⟩
  · obtain ⟨h1, h2, h3⟩ := patchStep_canonical (props, req0, false) "path" "file_path" hc
    refine ⟨?_, ?_, ?_⟩
    · rw [hasK_patchStep_ne _ _ _ (by decide), hasK_patchStep_ne _ _ _ (by decide)]
      exact h1
    · intro hA
      rw [getK_patchStep_ne _ _ _ (by decide), getK_patchStep_ne _ _ _ (by decide)]
      exact h2 hA
    · intro hnd hm3
      exact (h3 hnd) ((mem_req_patchStep _ _ _ (by decide)).mp
        ((mem_req_patchStep _ _ _ (by decide)).mp hm3))
  · obtain ⟨h1, h2, h3⟩ := patchStep_canonical
      (patchStep (props, req0, false) ("path", "file_path")) "oldText" "old_string"
      (by rw [hasK_patchStep_ne _ _ _ (by decide)]; exact hc)
    refine ⟨?_, ?_, ?_⟩
    · rw [hasK_patchStep_ne _ _ _ (by decide)]
      exact h1
    · intro hA
      rw [getK_patchStep_ne _ _ _ (by decide),
        h2 (by rw [hasK_patchStep_ne _ _ _ (by decide)]; exact hA)]
      exact getK_patchStep_ne _ _ _ (by decide)
    · intro hnd hm3
      exact (h3 (nodup_req_patchStep _ _ hnd))
        ((mem_req_patchStep _ _ _ (by decide)).mp hm3)
  · obtain ⟨h1, h2, h3⟩ := patchStep_canonical
      (patchStep (patchStep (props, req0, false) ("path", "file_path"))
        ("oldText", "old_string")) "newText" "new_string"
      (by rw [hasK_patchStep_ne _ _ _ (by decide),
          hasK_patchStep_ne _ _ _ (by decide)]; exact hc)
    refine ⟨h1, ?_, ?_⟩
    · intro hA
      rw [h2 (by rw [hasK_patchStep_ne _ _ _ (by decide),
          hasK_patchStep_ne _ _ _ (by decide)]; exact hA),
        getK_patchStep_ne _ _ _ (by decide)]
      exact getK_patchStep_ne _ _ _ (by decide)
    · intro hnd
      exact h3 (nodup_req_patchStep _ _ (nodup_req_patchStep _ _ hnd))

theorem patch_fold_unchanged (props : JObj) (req0 : List String)
    (h : (aliasPairs.foldl patchStep (props, req0, false)).2.2 = false) :
    aliasPairs.foldl patchStep (props, req0, false) = (props, req0, false) ∧
    (∀ p ∈ aliasPairs, hasK props p.1 = true →
      hasK props p.2 = true ∧ req0.contains p.1 = false) := by
  rw [aliasPairs_fold_eq] at h ⊢
  have u3 := patchStep_unchanged _ ("newText", "new_string") h
  have u2 := patchStep_unchanged _ ("oldText", "old_string") u3.1
  have u1 := patchStep_unchanged _ ("path", "file_path") u2.1
  have eq1 : patchStep (props, req0, false) ("path", "file_path") = (props, req0, false) :=
    u1.2.2
  have eq2 : patchStep (patchStep (props, req0, false) ("path", "file_path"))
      ("oldText", "old_string") = (props, req0, false) := u2.2.2.trans eq1
  have eq3 : patchStep (patchStep (patchStep (props, req0, false) ("path", "file_path"))
      ("oldText", "old_string")) ("newText", "new_string") = (props, req0, false) :=
    u3.2.2.trans eq2
  refine ⟨eq3, ?_⟩
  intro p hp hcp
  simp only [aliasPairs, List.mem_cons, List.not_mem_nil, or_false] at hp
  rcases hp with rfl | rfl | rfl
  · exact u1.2.1 hcp
  · rw [eq1] at u2
    exact u2.2.1 hcp
  · rw [eq2] at u3
    exact u3.2.1 hcp

theorem patch_fold_id (props : JObj) (req0 : List String)
    (h : ∀ p ∈ aliasPairs, hasK props p.1 = true →
      hasK props p.2 = true ∧ req0.contains p.1 = false) :
    aliasPairs.foldl patchStep (props, req0, false) = (props, req0, false) := by
  rw [aliasPairs_fold_eq,
    patchStep_id (props, req0, false) ("path", "file_path") (h _ (by decide)),
    patchStep_id (props, req0, false) ("oldText", "old_string") (h _ (by decide)),
    patchStep_id (props, req0, false) ("newText", "new_string") (h _ (by decide))]

/-- Claim C9, counterexample: a tool whose schema declares the canonical field
`path` and lists it twice in `required` — the patcher removes only the first
occurrence (`indexOf` + `splice`), so the patched required list still contains
the canonical field, contradicting the claim's "no longer contains". -/
theorem c9_schema_patch_cex :
    hasK (schemaProps (AnyAgentTool.mk "read"
      (JVal.obj [("properties", JVal.obj [("path", JVal.null)]),
        ("required", JVal.arr [JVal.str "path", JVal.str "path"])]))) "path" = true ∧
    "path" ∈ schemaRequired (patchToolSchemaForClaudeCompatibility (AnyAgentTool.mk "read"
      (JVal.obj [("properties", JVal.obj [("path", JVal.null)]),
        ("required", JVal.arr [JVal.str "path", JVal.str "path"])]))) := by
  constructor
  · rfl
  · decide

/-- Claim C9 (amended): for a tool definition whose parameter schema declares
a canonical field of an alias pair, the patched definition declares the alias
field (with the canonical field's property definition when the alias was not
already declared), and its required list no longer contains the canonical
field provided the declared required list has no duplicate entries (only the
first occurrence is removed); when no change applies (every declared canonical
field already has its alias declared and is not required), the original
definition value is returned unchanged. -/
theorem c9_schema_patch (tool : AnyAgentTool) (schema props : JObj) (c a : String)
    (hparams : tool.parameters = JVal.obj schema)
    (hprops : getK schema "properties" = some (JVal.obj props))
    (hmem : (c, a) ∈ aliasPairs) (hc : hasK props c = true) :
    hasK (schemaProps (patchToolSchemaForClaudeCompatibility tool)) a = true ∧
    (hasK props a = false →
      getK (schemaProps (patchToolSchemaForClaudeCompatibility tool)) a = getK props c) ∧
    ((schemaRequired tool).Nodup →
      c ∉ schemaRequired (patchToolSchemaForClaudeCompatibility tool)) ∧
    ((∀ p ∈ aliasPairs, hasK props p.1 = true →
        hasK props p.2 = true ∧ (schemaRequired tool).contains p.1 = false) →
      patchToolSchemaForClaudeCompatibility tool = tool) := by
  have hreq : schemaRequired tool = requiredStrings (getK schema "required") := by
    simp [schemaRequired, hparams]
  cases hch : (aliasPairs.foldl patchStep
      (props, requiredStrings (getK schema "required"), false)).2.2 with
  | true =>
    have hpatch : patchToolSchemaForClaudeCompatibility tool =
        { tool with parameters := JVal.obj (setK (setK schema "properties"
            (JVal.obj (aliasPairs.foldl patchStep
              (props, requiredStrings (getK schema "required"), false)).1)) "required"
            (JVal.arr ((aliasPairs.foldl patchStep
              (props, requiredStrings (getK schema "required"), false)).2.1.map
                JVal.str))) } := by
      simp [patchToolSchemaForClaudeCompatibility, hparams, hprops, hch]
    have hsp : schemaProps (patchToolSchemaForClaudeCompatibility tool) =
        (aliasPairs.foldl patchStep
          (props, requiredStrings (getK schema "required"), false)).1 := by
      rw [hpatch]
      simp only [schemaProps]
      rw [getK_setK_ne _ _ _ _ (by decide), getK_setK_self]
    have hsr : schemaRequired (patchToolSchemaForClaudeCompatibility tool) =
        (aliasPairs.foldl patchStep
          (props, requiredStrings (getK schema "required"), false)).2.1 := by
      rw [hpatch]
      simp only [schemaRequired]
      rw [getK_setK_self, requiredStrings_map_str]
    obtain ⟨f1, f2, f3⟩ := patch_fold_facts props (requiredStrings (getK schema "required"))
      c a hmem hc
    refine ⟨?_, ?_, ?_, ?_⟩
    · rw [hsp]
      exact f1
    · intro hA
      rw [hsp]
      exact f2 hA
    · intro hnd
      rw [hreq] at hnd
      rw [hsr]
      exact f3 hnd
    · intro hno
      rw [hreq] at hno
      rw [patch_fold_id props (requiredStrings (getK schema "required")) hno] at hch
      cases hch
  | false =>
    have hpatch : patchToolSchemaForClaudeCompatibility tool = tool := by
      simp [patchToolSchemaForClaudeCompatibility, hparams, hprops, hch]
    have hsp : schemaProps tool = props := by
      simp [schemaProps, hparams, hprops]
    obtain ⟨_, himpl⟩ := patch_fold_unchanged props
      (requiredStrings (getK schema "required")) hch
    obtain ⟨hA2, hR2⟩ := himpl (c, a) hmem hc
    refine ⟨?_, ?_, ?_, fun _ => hpatch⟩
    · rw [hpatch, hsp]
      exact hA2
    · intro hA
      rw [hA2] at hA
      cases hA
    · intro _ hm
      rw [hpatch, hreq] at hm
      have hct : (requiredStrings (getK schema "required")).contains c = true :=
        List.elem_iff.mpr hm
      rw [hct] at hR2
      cases hR2

/-- Claim C9, witness: patching a concrete edit-like schema declares the
`file_path` alias mirroring the `path` property and drops `path` from the
required list. -/
theorem c9_schema_patch_witness :
    hasK (schemaProps (patchToolSchemaForClaudeCompatibility (AnyAgentTool.mk "edit"
      (JVal.obj [("properties", JVal.obj [("path", JVal.str "P"),
        ("oldText", JVal.str "Q")]),
        ("required", JVal.arr [JVal.str "path", JVal.str "oldText"])])))) "file_path" =
      true ∧
    getK (schemaProps (patchToolSchemaForClaudeCompatibility (AnyAgentTool.mk "edit"
      (JVal.obj [("properties", JVal.obj [("path", JVal.str "P"),
        ("oldText", JVal.str "Q")]),
        ("required", JVal.arr [JVal.str "path", JVal.str "oldText"])])))) "file_path" =
      some (JVal.str "P") ∧
    "path" ∉ schemaRequired (patchToolSchemaForClaudeCompatibility (AnyAgentTool.mk "edit"
      (JVal.obj [("properties", JVal.obj [("path", JVal.str "P"),
        ("oldText", JVal.str "Q")]),
        ("required", JVal.arr [JVal.str "path", JVal.str "oldText"])]))) := by
  have h := c9_schema_patch (AnyAgentTool.mk "edit"
    (JVal.obj [("properties", JVal.obj [("path", JVal.str "P"),
      ("oldText", JVal.str "Q")]),
      ("required", JVal.arr [JVal.str "path", JVal.str "oldText"])]))
    [("properties", JVal.obj [("path", JVal.str "P"), ("oldText", JVal.str "Q")]),
      ("required", JVal.arr [JVal.str "path", JVal.str "oldText"])]
    [("path", JVal.str "P"), ("oldText", JVal.str "Q")]
    "path" "file_path" rfl rfl (by decide) rfl
  exact ⟨h.1, (h.2.1 rfl).trans rfl, h.2.2.1 (by decide)⟩

end OpenClaw

